import Mathlib

/-!
Verification of the stellar-spectra data-cleaning pipeline, embedded from
`src/stellar-spectra/data_cleaner.py` (the final, canonical variant of the
pipeline according to the design notes).

Modelling conventions:
* numpy float arrays are modelled as `List ℚ` (exact arithmetic); bitmask
  arrays as `List ℕ`; the bad-pixel dictionary as the list of its keys
  (`List ℕ`, distinct bit positions).
* fallible numpy behaviour (broadcast mismatches, out-of-bounds indexing,
  the polynomial fit on degenerate inputs) is modelled with `Except String`;
  the string carries the kind of exception numpy raises there.
* `np.where(cond(data))[0]` is modelled as filtering `List.range data.length`;
  fancy indexing `a[inds]` as mapping `a.getD · 0` over the index list;
  boolean-mask indexing `a[mask]` as `bool_index`.
-/

namespace StellarSpectra

/-- Indices `i` with `p data[i] = true`, ascending: `np.where(p(data))[0]`. -/
def np_where (data : List ℚ) (p : ℚ → Bool) : List ℕ :=
  (List.range data.length).filter (fun i => p (data.getD i 0))

/-- `np.intersect1d a b`: sorted list of the distinct values common to `a`
and `b`. -/
def intersect1d (a b : List ℕ) : List ℕ :=
  ((List.insertionSort (· ≤ ·) a).dedup).filter (fun i => decide (i ∈ b))

/-- `interval_cut` (data_cleaner.py lines 141-146): indices of `data` lying
strictly inside the open interval. -/
def interval_cut (data : List ℚ) (interval : ℚ × ℚ) : List ℕ :=
  intersect1d (np_where data (fun v => decide (interval.1 < v)))
    (np_where data (fun v => decide (v < interval.2)))

/-- `bit_sum` accumulation of `bad_pix_indices` (lines 84-87): the combined
bitmask `2^k` summed over the keys of the bad-pixels dictionary. -/
def bit_sum (keys : List ℕ) : ℕ :=
  keys.foldl (fun acc k => acc + 2 ^ k) 0

/-- `bad_pix_indices` (lines 62-91): indices whose bitmask entry shares a
bit with the combined bad bitmask.  The source broadcasts `bitmask_array`
against `np.full(len, bit_sum)`; the model requires the lengths to be equal
and reports numpy's broadcast `ValueError` otherwise (the numpy special case
of broadcasting a length-one array is not exercised by the pipeline and is
not modelled). -/
def bad_pix_indices (bitmask_array : List ℕ) (keys : List ℕ) (len : ℕ) :
    Except String (List ℕ) :=
  if bitmask_array.length = len then
    .ok ((List.range len).filter
      (fun i => decide (0 < bitmask_array.getD i 0 &&& bit_sum keys)))
  else
    .error "operands could not be broadcast together"

/-- `update_errors` (lines 93-117): copy of the error array with every bad
pixel replaced by the sentinel `1e10`.  The FITS `HDUList` access
(`data[2].data`, `data[3].data`, `data[0].header` and the 2-D branch, which
applies the same update to row 0) is the I/O boundary; the model receives
the error array, mask array and `nwave` header value directly.  numpy fancy
assignment raises `IndexError` when a bad index is out of bounds for the
error array. -/
def update_errors (errors : List ℚ) (mask : List ℕ) (keys : List ℕ)
    (nwave : ℕ) : Except String (List ℚ) :=
  match bad_pix_indices mask keys nwave with
  | .error s => .error s
  | .ok bad =>
    if bad.all (fun i => decide (i < errors.length)) then
      .ok ((List.range errors.length).map
        (fun i => if i ∈ bad then 10 ^ 10 else errors.getD i 0))
    else
      .error "index is out of bounds"

/-- The `while` loop of `closest_value` (lines 55-57): advance the cursor
while the next spectrum wavelength is strictly closer to `c` than the
current one.  The loop advances at most `spec_w.length` times, so running it
with that much fuel reproduces the loop exactly. -/
def advance_while (spec_w : List ℚ) (c : ℚ) : ℕ → ℕ → ℕ
  | 0, j => j
  | fuel + 1, j =>
    if j + 1 < spec_w.length ∧
        |spec_w.getD (j + 1) 0 - c| < |spec_w.getD j 0 - c| then
      advance_while spec_w c fuel (j + 1)
    else
      j

/-- The `for` loop of `closest_value` (lines 53-58): for each continuum
wavelength advance the shared cursor, then mark the reached index. -/
def closest_value_loop (spec_w : List ℚ) : List ℚ → ℕ → List Bool → List Bool
  | [], _, fit_bools => fit_bools
  | c :: cs, j, fit_bools =>
    let j2 := advance_while spec_w c spec_w.length j
    closest_value_loop spec_w cs j2 (fit_bools.set j2 true)

/-- `closest_value` (lines 27-60): boolean mask over the spectrum
wavelengths marking, for each continuum wavelength, the index reached by the
forward-only cursor.  (`List.set` is a no-op out of bounds; the only
out-of-bounds write occurs when the spectrum array is empty and the
continuum is not, and `data_normalizer` below accounts for the `IndexError`
numpy raises there.) -/
def closest_value (cont_wavelengths spec_wavelengths : List ℚ) : List Bool :=
  closest_value_loop spec_wavelengths cont_wavelengths 0
    (List.replicate spec_wavelengths.length false)

/-- The per-query matched indices of `closest_value`: the cursor position
recorded (`fit_bools[j] = True`) for each continuum wavelength in turn. -/
def match_indices (spec_w : List ℚ) : List ℚ → ℕ → List ℕ
  | [], _ => []
  | c :: cs, j =>
    let j2 := advance_while spec_w c spec_w.length j
    j2 :: match_indices spec_w cs j2

/-- `np.linspace a b num` (endpoint included): `a + (b - a) * i / (num - 1)`
at each `i < num`. -/
def linspace (a b : ℚ) (num : ℕ) : List ℚ :=
  (List.range num).map
    (fun i : ℕ => a + (b - a) * (i : ℚ) / ((num - 1 : ℕ) : ℚ))

/-- `create_wavelengths` (lines 119-139) at the level of base-10 exponents:
the source returns `np.logspace(start, start + delta*8575, 8575)`, i.e. the
wavelength at index `i` is `10` raised to the `i`-th entry of this list.
Since `x ↦ 10 ^ x` is injective, statements about the produced wavelengths
reduce to statements about these exponents. -/
def create_wavelengths_exponents (start delta : ℚ) : List ℚ :=
  linspace start (start + delta * 8575) 8575

/-- Row vectors / coefficient vectors of the degree-2 Chebyshev fit. -/
abbrev Vec3 := ℚ × ℚ × ℚ

/-- 3×3 matrices as triples of rows. -/
abbrev Mat3 := Vec3 × Vec3 × Vec3

/-- Componentwise vector sum. -/
def vadd (a b : Vec3) : Vec3 := (a.1 + b.1, a.2.1 + b.2.1, a.2.2 + b.2.2)

/-- Componentwise vector difference. -/
def vsub (a b : Vec3) : Vec3 := (a.1 - b.1, a.2.1 - b.2.1, a.2.2 - b.2.2)

/-- Scalar multiple of a vector. -/
def vsmul (c : ℚ) (a : Vec3) : Vec3 := (c * a.1, c * a.2.1, c * a.2.2)

/-- Dot product. -/
def vdot (a b : Vec3) : ℚ := a.1 * b.1 + a.2.1 * b.2.1 + a.2.2 * b.2.2

/-- Componentwise matrix sum. -/
def madd (A B : Mat3) : Mat3 := (vadd A.1 B.1, vadd A.2.1 B.2.1, vadd A.2.2 B.2.2)

/-- Scalar multiple of a matrix. -/
def msmul (c : ℚ) (A : Mat3) : Mat3 := (vsmul c A.1, vsmul c A.2.1, vsmul c A.2.2)

/-- Matrix–vector product (rows dotted with the vector). -/
def mulVec (A : Mat3) (v : Vec3) : Vec3 := (vdot A.1 v, vdot A.2.1 v, vdot A.2.2 v)

/-- Outer product `v vᵀ`. -/
def outer (v : Vec3) : Mat3 := (vsmul v.1 v, vsmul v.2.1 v, vsmul v.2.2 v)

/-- The zero matrix. -/
def mat_zero : Mat3 := ((0, 0, 0), (0, 0, 0), (0, 0, 0))

/-- Trace of a 3×3 matrix. -/
def trace3 (A : Mat3) : ℚ := A.1.1 + A.2.1.2.1 + A.2.2.2.2

/-- Determinant of a 3×3 matrix. -/
def det3 (A : Mat3) : ℚ :=
  A.1.1 * (A.2.1.2.1 * A.2.2.2.2 - A.2.1.2.2 * A.2.2.2.1)
    - A.1.2.1 * (A.2.1.1 * A.2.2.2.2 - A.2.1.2.2 * A.2.2.1)
    + A.1.2.2 * (A.2.1.1 * A.2.2.2.1 - A.2.1.2.1 * A.2.2.1)

/-- Sum of the principal 2×2 minors (the degree-1 characteristic-polynomial
coefficient of a 3×3 matrix). -/
def minor_sum (A : Mat3) : ℚ :=
  (A.2.1.2.1 * A.2.2.2.2 - A.2.1.2.2 * A.2.2.2.1)
    + (A.1.1 * A.2.2.2.2 - A.1.2.2 * A.2.2.1)
    + (A.1.1 * A.2.1.2.1 - A.1.2.1 * A.2.1.1)

/-- Chebyshev basis row `[T0 t, T1 t, T2 t]` (the `deg = 2` Vandermonde row
of `np.polynomial.chebyshev.chebvander`). -/
def cheb_row (t : ℚ) : Vec3 := (1, t, 2 * t * t - 1)

/-- Weighted normal system of the degree-2 Chebyshev least-squares problem:
accumulates `B = Σ wᵢ² vᵢ vᵢᵀ` and `r = Σ wᵢ² yᵢ vᵢ` over the points
`(tᵢ, yᵢ, wᵢ)` with `vᵢ = cheb_row tᵢ`. -/
def normal_system (pts : List (ℚ × ℚ × ℚ)) : Mat3 × Vec3 :=
  pts.foldl
    (fun acc p =>
      let row := cheb_row p.1
      let w2 := p.2.2 * p.2.2
      (madd acc.1 (msmul w2 (outer row)), vadd acc.2 (vsmul (w2 * p.2.1) row)))
    (mat_zero, (0, 0, 0))

/-- Minimum-norm solution of `B x = r` for the (positive-semidefinite)
normal matrix `B`, the solution `numpy.linalg.lstsq` returns: via the
characteristic polynomial `λ³ - c₂λ² + c₁λ - c₀` of `B`, the pseudo-inverse
is `(B² - c₂B + c₁I)/c₀` at full rank, `(c₂B - B²)/c₁` at rank 2,
`B/c₂²` at rank 1 and `0` at rank 0. -/
def lstsq3 (B : Mat3) (r : Vec3) : Vec3 :=
  let c2 := trace3 B
  let c1 := minor_sum B
  let c0 := det3 B
  let Br := mulVec B r
  let BBr := mulVec B Br
  if c0 ≠ 0 then
    vsmul (1 / c0) (vadd (vsub BBr (vsmul c2 Br)) (vsmul c1 r))
  else if c1 ≠ 0 then
    vsmul (1 / c1) (vsub (vsmul c2 Br) BBr)
  else if c2 ≠ 0 then
    vsmul (1 / (c2 * c2)) Br
  else
    (0, 0, 0)

/-- `np.polynomial.polyutils.getdomain x` for 1-D data:
`[x.min(), x.max()]`. -/
def getdomain (x : List ℚ) : ℚ × ℚ :=
  (x.foldl min (x.getD 0 0), x.foldl max (x.getD 0 0))

/-- `np.polynomial.polyutils.mapdomain old new x`: the affine map sending
the interval `old` onto the interval `new`, applied to `x`
(`off + scl * x` with `scl = (new₂ - new₁)/(old₂ - old₁)` and
`off = new₁ - old₁ * scl`). -/
def mapdomain (old new : ℚ × ℚ) (x : ℚ) : ℚ :=
  let scl := (new.2 - new.1) / (old.2 - old.1)
  new.1 - old.1 * scl + scl * x

/-- `np.polynomial.chebyshev.chebval x coef` for a degree-2 coefficient
vector: `c₀ T₀(x) + c₁ T₁(x) + c₂ T₂(x)` (Clenshaw recursion coincides with
this sum exactly in exact arithmetic). -/
def chebval (coef : Vec3) (x : ℚ) : ℚ :=
  coef.1 + coef.2.1 * x + coef.2.2 * (2 * x * x - 1)

/-- `np.polynomial.chebyshev.Chebyshev.fit(x, y, 2, window=window, w=w)`:
with `domain = getdomain x` (the default), numpy maps the sample points
through `mapdomain domain window` and solves the weighted least-squares
problem on the mapped points; the returned series therefore stores
coefficients in window coordinates.  numpy raises `TypeError` on an empty
sample vector, and the degenerate single-value domain produces `inf/nan`
mapped points on which `lstsq` raises `LinAlgError`; with fewer points than
coefficients it only emits a `RankWarning` and returns the minimum-norm
solution. -/
def chebfit (xs ys ws : List ℚ) (window : ℚ × ℚ) : Except String Vec3 :=
  if xs.isEmpty then
    .error "expected non-empty vector for x"
  else
    let domain := getdomain xs
    if domain.1 = domain.2 then
      .error "SVD did not converge in Linear Least Squares"
    else
      let ts := xs.map (mapdomain domain window)
      let sys := normal_system (ts.zip (ys.zip ws))
      .ok (lstsq3 sys.1 sys.2)

/-- numpy boolean-mask indexing `xs[mask]`. -/
def bool_index (xs : List ℚ) (mask : List Bool) : List ℚ :=
  ((xs.zip mask).filter (fun p => p.2)).map (fun p => p.1)

/-- `data_normalizer` (lines 148-206) downstream of the I/O boundary: the
wavelength reconstruction, continuum-reference load and FITS accesses of
lines 169-173 are modelled as the four input arrays.  The model reproduces
the source's control flow: interval restriction, the continuum-anchor mask,
the weighted degree-2 Chebyshev fit with `window = [sw[0], sw[-1]]`, and the
normalization computed by `chebval` on the *raw* restricted wavelengths
(the source applies no domain mapping at evaluation time).  When the
restricted spectrum is empty numpy raises `IndexError` (in
`fit_bools[j] = True` if the restricted continuum is nonempty, else at
`spec_wavelengths[0]` in the window argument); rational division by zero in
the final normalization is numpy `inf/nan` propagation, which raises
nothing, matching `ℚ` division. -/
def data_normalizer (spec_wavelengths cont_wavelengths spectrum errors : List ℚ)
    (interval : ℚ × ℚ) : Except String (List ℚ × List ℚ) :=
  let cut_inds := interval_cut spec_wavelengths interval
  let cont_cut_inds := interval_cut cont_wavelengths interval
  let sw := cut_inds.map (fun i => spec_wavelengths.getD i 0)
  let cw := cont_cut_inds.map (fun i => cont_wavelengths.getD i 0)
  let sp := cut_inds.map (fun i => spectrum.getD i 0)
  let er := cut_inds.map (fun i => errors.getD i 0)
  if sw.length = 0 then
    .error "index 0 is out of bounds"
  else
    let cont_inds := closest_value cw sw
    let ctm_sw := bool_index sw cont_inds
    let ctm_sp := bool_index sp cont_inds
    let ctm_er := bool_index er cont_inds
    match chebfit ctm_sw ctm_sp (ctm_er.map (fun e => 1 / e))
        (sw.getD 0 0, sw.getD (sw.length - 1) 0) with
    | .error s => .error s
    | .ok coef =>
      let dense_cut_inds := interval_cut sw interval
      let dense_sw := dense_cut_inds.map (fun i => sw.getD i 0)
      let dense_sp := dense_cut_inds.map (fun i => sp.getD i 0)
      let dense_er := dense_cut_inds.map (fun i => er.getD i 0)
      let normalization := dense_sw.map (fun x => chebval coef x)
      .ok (List.zipWith (· / ·) dense_sp normalization,
        List.zipWith (· / ·) dense_er normalization)

/-! ### General helper lemmas -/

/-- Unfold the absolute value of a rational into an `if`, so that concrete
instances evaluate by `norm_num`. -/
theorem abs_rat_eval (q : ℚ) : |q| = if q < 0 then -q else q := by
  split
  · exact abs_of_neg (by assumption)
  · exact abs_of_nonneg (not_lt.mp (by assumption))

/-- Reading a mapped range at an in-bounds index. -/
theorem getD_map_range {α : Type} (f : ℕ → α) (n i : ℕ) (d : α) (h : i < n) :
    ((List.range n).map f).getD i d = f i := by
  rw [List.getD_eq_getElem _ _ (by simpa using h)]
  simp

/-! ### IntervalSelector: `np_where`, `intersect1d`, `interval_cut` -/

/-- Membership in `np_where`. -/
theorem np_where_mem (data : List ℚ) (p : ℚ → Bool) (i : ℕ) :
    i ∈ np_where data p ↔ i < data.length ∧ p (data.getD i 0) = true := by
  simp [np_where, List.mem_filter]

/-- `np_where` returns strictly ascending indices. -/
theorem np_where_pairwise (data : List ℚ) (p : ℚ → Bool) :
    List.Pairwise (· < ·) (np_where data p) :=
  (List.pairwise_lt_range _).filter _

/-- On an ascending duplicate-free first argument, `intersect1d` is plain
filtering. -/
theorem intersect1d_eq_filter (a b : List ℕ) (ha : List.Pairwise (· < ·) a) :
    intersect1d a b = a.filter (fun i => decide (i ∈ b)) := by
  unfold intersect1d
  rw [List.Sorted.insertionSort_eq (ha.imp le_of_lt),
    List.dedup_eq_self.mpr (ha.imp ne_of_lt)]

/-- `interval_cut` as a single filter over the wavelength indices. -/
theorem interval_cut_eq_filter (data : List ℚ) (iv : ℚ × ℚ) :
    interval_cut data iv =
      (np_where data (fun v => decide (iv.1 < v))).filter
        (fun i => decide (i ∈ np_where data (fun v => decide (v < iv.2)))) := by
  unfold interval_cut
  exact intersect1d_eq_filter _ _ (np_where_pairwise _ _)

/-- Claim C3: for every interval `(lo, hi)` and wavelength array `W`,
`interval_cut` returns exactly the indices `i` with `lo < W[i] < hi`
(strict open interval), in ascending order, and the result is empty iff no
index satisfies the condition. -/
theorem c3_interval_cut_exact (data : List ℚ) (iv : ℚ × ℚ) :
    (∀ i, i ∈ interval_cut data iv ↔
      i < data.length ∧ iv.1 < data.getD i 0 ∧ data.getD i 0 < iv.2) ∧
    List.Pairwise (· < ·) (interval_cut data iv) ∧
    (interval_cut data iv = [] ↔
      ¬ ∃ i, i < data.length ∧ iv.1 < data.getD i 0 ∧ data.getD i 0 < iv.2) := by
  have hmem : ∀ i, i ∈ interval_cut data iv ↔
      i < data.length ∧ iv.1 < data.getD i 0 ∧ data.getD i 0 < iv.2 := by
    intro i
    rw [interval_cut_eq_filter]
    simp only [List.mem_filter, np_where_mem, decide_eq_true_eq]
    tauto
  refine ⟨hmem, ?_, ?_⟩
  · rw [interval_cut_eq_filter]
    exact (np_where_pairwise _ _).filter _
  · rw [List.eq_nil_iff_forall_not_mem]
    simp only [hmem, not_exists]

/-! ### BitmaskErrorInflator: `bit_sum`, `bad_pix_indices`, `update_errors` -/

/-- Folding the `bit_sum` accumulation from an arbitrary accumulator. -/
theorem bit_sum_acc (keys : List ℕ) : ∀ a : ℕ,
    keys.foldl (fun acc k => acc + 2 ^ k) a = a + bit_sum keys := by
  induction keys with
  | nil => intro a; simp [bit_sum]
  | cons k rest ih =>
    intro a
    show rest.foldl _ (a + 2 ^ k) = a + bit_sum (k :: rest)
    have hc : bit_sum (k :: rest) = 2 ^ k + bit_sum rest := by
      show rest.foldl _ (0 + 2 ^ k) = _
      rw [ih (0 + 2 ^ k)]
      omega
    rw [ih (a + 2 ^ k), hc]
    omega

/-- `bit_sum` of a cons. -/
theorem bit_sum_cons (k : ℕ) (rest : List ℕ) :
    bit_sum (k :: rest) = 2 ^ k + bit_sum rest := by
  show rest.foldl _ (0 + 2 ^ k) = _
  rw [bit_sum_acc rest (0 + 2 ^ k)]
  omega

/-- Adding `2 ^ k` to a number whose bit `k` is clear sets exactly bit `k`. -/
theorem testBit_two_pow_add (k : ℕ) : ∀ (x j : ℕ), x.testBit k = false →
    (2 ^ k + x).testBit j = (decide (j = k) || x.testBit j) := by
  induction k with
  | zero =>
    intro x j hx
    have hx0 : x % 2 = 0 := by
      rw [Nat.testBit_zero] at hx
      simp only [decide_eq_false_iff_not] at hx
      omega
    cases j with
    | zero =>
      rw [Nat.testBit_zero, Nat.testBit_zero]
      have h1 : (2 ^ 0 + x) % 2 = 1 := by omega
      rw [h1]
      have h2 : x % 2 ≠ 1 := by omega
      simp [h2]
    | succ j =>
      rw [Nat.testBit_succ, Nat.testBit_succ]
      have hdiv : (2 ^ 0 + x) / 2 = x / 2 := by omega
      rw [hdiv]
      simp
  | succ k ih =>
    intro x j hx
    have hx' : (x / 2).testBit k = false := by
      rw [← Nat.testBit_succ]
      exact hx
    have h2 : 2 ^ (k + 1) = 2 * 2 ^ k := by
      rw [Nat.pow_succ]
      ring
    cases j with
    | zero =>
      rw [Nat.testBit_zero, Nat.testBit_zero]
      have h1 : (2 ^ (k + 1) + x) % 2 = x % 2 := by omega
      have h2 : (0 : ℕ) ≠ k + 1 := by omega
      simp [h1, h2]
    | succ j =>
      rw [Nat.testBit_succ, Nat.testBit_succ]
      have hdiv : (2 ^ (k + 1) + x) / 2 = 2 ^ k + x / 2 := by omega
      rw [hdiv, ih (x / 2) j hx']
      by_cases hj : j = k
      · simp [hj]
      · have h2 : j + 1 ≠ k + 1 := by omega
        simp [hj, h2]

/-- The combined bad bitmask has exactly the dictionary's key bits set. -/
theorem testBit_bit_sum : ∀ keys : List ℕ, keys.Nodup → ∀ j : ℕ,
    (bit_sum keys).testBit j = decide (j ∈ keys) := by
  intro keys
  induction keys with
  | nil =>
    intro _ j
    simp [bit_sum]
  | cons k rest ih =>
    intro hk j
    have hk' : rest.Nodup := hk.of_cons
    have hknot : k ∉ rest := (List.nodup_cons.mp hk).1
    have hbit : (bit_sum rest).testBit k = false := by
      rw [ih hk' k]
      simpa using hknot
    rw [bit_sum_cons, testBit_two_pow_add k (bit_sum rest) j hbit, ih hk' j]
    by_cases hj : j = k <;> by_cases hm : j ∈ rest <;>
      simp [hj, hm, List.mem_cons]

/-- A bitmask entry shares a bit with the combined bad bitmask iff one of
the dictionary's bits is set in it. -/
theorem land_bit_sum_pos (b : ℕ) (keys : List ℕ) (hk : keys.Nodup) :
    0 < b &&& bit_sum keys ↔ ∃ k ∈ keys, b.testBit k := by
  constructor
  · intro h
    obtain ⟨i, hi⟩ := Nat.ne_zero_implies_bit_true (Nat.pos_iff_ne_zero.mp h)
    rw [Nat.testBit_land] at hi
    obtain ⟨h1, h2⟩ := Bool.and_eq_true_iff.mp hi
    rw [testBit_bit_sum keys hk] at h2
    exact ⟨i, of_decide_eq_true h2, h1⟩
  · rintro ⟨k, hkmem, hkbit⟩
    apply Nat.pos_iff_ne_zero.mpr
    intro h0
    have : (b &&& bit_sum keys).testBit k = false := by
      rw [h0]
      exact Nat.zero_testBit k
    rw [Nat.testBit_land, hkbit, testBit_bit_sum keys hk] at this
    simp [hkmem] at this

/-- `bad_pix_indices` on matching lengths. -/
theorem bad_pix_indices_ok (b : List ℕ) (keys : List ℕ) (len : ℕ)
    (h : b.length = len) :
    bad_pix_indices b keys len = .ok ((List.range len).filter
      (fun i => decide (0 < b.getD i 0 &&& bit_sum keys))) := by
  simp [bad_pix_indices, h]

/-- Claim C1: for equal-length error and bitmask arrays and any bad-pixel
dictionary, the inflator succeeds and returns an array whose entry at `i`
is the sentinel `1e10` exactly when `bitmask[i]` has a bit set that the
dictionary marks significant, and `errors[i]` unchanged otherwise; an empty
dictionary (or a zero bitmask entry) never triggers inflation. -/
theorem c1_update_errors_characterization (e : List ℚ) (b : List ℕ)
    (keys : List ℕ) (hk : keys.Nodup) (hlen : b.length = e.length) :
    ∃ r : List ℚ, update_errors e b keys e.length = .ok r ∧
      r.length = e.length ∧
      (∀ i, i < e.length → r.getD i 0 =
        if ∃ k ∈ keys, (b.getD i 0).testBit k then 10 ^ 10 else e.getD i 0) ∧
      (keys = [] → r = e) ∧
      (∀ i, i < e.length → b.getD i 0 = 0 → r.getD i 0 = e.getD i 0) := by
  classical
  have hbadmem : ∀ i, i ∈ (List.range e.length).filter
      (fun i => decide (0 < b.getD i 0 &&& bit_sum keys)) ↔
      i < e.length ∧ (∃ k ∈ keys, (b.getD i 0).testBit k) := by
    intro i
    rw [List.mem_filter, List.mem_range, decide_eq_true_eq,
      land_bit_sum_pos _ _ hk]
  have hok : update_errors e b keys e.length =
      .ok ((List.range e.length).map (fun i =>
        if i ∈ (List.range e.length).filter
            (fun i => decide (0 < b.getD i 0 &&& bit_sum keys)) then (10 ^ 10 : ℚ)
          else e.getD i 0)) := by
    unfold update_errors
    rw [bad_pix_indices_ok b keys e.length hlen]
    have hall : ((List.range e.length).filter
        (fun i => decide (0 < b.getD i 0 &&& bit_sum keys))).all
        (fun i => decide (i < e.length)) = true := by
      rw [List.all_eq_true]
      intro i hi
      exact decide_eq_true ((hbadmem i).mp hi).1
    dsimp only
    rw [if_pos hall]
  refine ⟨_, hok, by simp, ?_, ?_, ?_⟩
  · intro i hi
    rw [getD_map_range _ _ _ _ hi]
    exact if_congr (by rw [hbadmem i]; tauto) rfl rfl
  · intro hkeys
    subst hkeys
    apply List.ext_getElem (by simp)
    intro n h1 h2
    have hn : n < e.length := by simpa using h2
    rw [← List.getD_eq_getElem _ 0 h1, ← List.getD_eq_getElem _ 0 h2,
      getD_map_range _ _ _ _ hn]
    have : ¬ (n ∈ (List.range e.length).filter
        (fun i => decide (0 < b.getD i 0 &&& bit_sum ([] : List ℕ)))) := by
      rw [hbadmem n]
      simp
    rw [if_neg this]
  · intro i hi hzero
    rw [getD_map_range _ _ _ _ hi]
    have : ¬ (i ∈ (List.range e.length).filter
        (fun i => decide (0 < b.getD i 0 &&& bit_sum keys))) := by
      rw [hbadmem i, hzero]
      simp [Nat.zero_testBit]
    rw [if_neg this]

/-- Witness for C1: the spec's scenario, bitmask `[0, 1, 2, 0]`,
significant bits `{0, 1}`, errors `[1, 1, 1, 1]`, giving
`[1, 1e10, 1e10, 1]`. -/
theorem c1_witness :
    (∃ r : List ℚ, update_errors [1, 1, 1, 1] [0, 1, 2, 0] [0, 1] 4 = .ok r ∧
      r.length = 4 ∧
      (∀ i, i < 4 → r.getD i 0 =
        if ∃ k ∈ [0, 1], (([0, 1, 2, 0] : List ℕ).getD i 0).testBit k
        then 10 ^ 10 else ([1, 1, 1, 1] : List ℚ).getD i 0) ∧
      (([0, 1] : List ℕ) = [] → r = [1, 1, 1, 1]) ∧
      (∀ i, i < 4 → ([0, 1, 2, 0] : List ℕ).getD i 0 = 0 →
        r.getD i 0 = ([1, 1, 1, 1] : List ℚ).getD i 0)) ∧
    update_errors [1, 1, 1, 1] [0, 1, 2, 0] [0, 1] 4 =
      .ok [1, 10 ^ 10, 10 ^ 10, 1] :=
  ⟨c1_update_errors_characterization [1, 1, 1, 1] [0, 1, 2, 0] [0, 1]
    (by decide) (by decide), by rfl⟩

/-- Claim C8 (code evaluation at the failing input): the inflator contains
no length validation.  With an error array of length 2, a bitmask array of
length 3 (and the matching `nwave = 3`), and bit 0 significant, the source
silently succeeds — the bad pixel index 0 happens to be in range for the
shorter error array — instead of failing with a length-mismatch error. -/
theorem c8_no_length_validation :
    ([(1 : ℚ), 1].length ≠ ([1, 0, 0] : List ℕ).length) ∧
    update_errors [1, 1] [1, 0, 0] [0] 3 = .ok [10 ^ 10, 1] :=
  ⟨by decide, by rfl⟩

/-- Claim C9: error inflation is idempotent — whenever the inflator
succeeds, feeding its output back through with the same bitmask array,
dictionary and `nwave` reproduces that output. -/
theorem c9_update_errors_idempotent (e : List ℚ) (b : List ℕ)
    (keys : List ℕ) (n : ℕ) (r : List ℚ)
    (h : update_errors e b keys n = .ok r) :
    update_errors r b keys n = .ok r := by
  classical
  unfold update_errors at h ⊢
  cases hb : bad_pix_indices b keys n with
  | error s =>
    rw [hb] at h
    simp at h
  | ok bad =>
    rw [hb] at h
    dsimp only at h ⊢
    by_cases hall : bad.all (fun i => decide (i < e.length)) = true
    · rw [if_pos hall] at h
      have hr : r = (List.range e.length).map
          (fun i => if i ∈ bad then (10 ^ 10 : ℚ) else e.getD i 0) :=
        (Except.ok.inj h).symm
      have hrlen : r.length = e.length := by
        rw [hr]
        simp
      have hall2 : bad.all (fun i => decide (i < r.length)) = true := by
        rw [hrlen]
        exact hall
      rw [if_pos hall2, hrlen]
      congr 1
      rw [hr]
      apply List.map_congr_left
      intro i hi
      have hilt : i < e.length := List.mem_range.mp hi
      by_cases hib : i ∈ bad
      · simp [hib]
      · rw [if_neg hib, if_neg hib, getD_map_range _ _ _ _ hilt, if_neg hib]
    · rw [if_neg hall] at h
      exact absurd h (by simp)

/-- Witness for C9: a second application of the inflator to the inflated
scenario output `[1, 1e10, 1e10, 1]` reproduces it. -/
theorem c9_witness :
    update_errors [1, 10 ^ 10, 10 ^ 10, 1] [0, 1, 2, 0] [0, 1] 4 =
      .ok [1, 10 ^ 10, 10 ^ 10, 1] :=
  c9_update_errors_idempotent [1, 1, 1, 1] [0, 1, 2, 0] [0, 1] 4
    [1, 10 ^ 10, 10 ^ 10, 1] (by rfl)

/-! ### Wavelength reconstruction: `linspace`, `create_wavelengths_exponents` -/

/-- `linspace` produces `num` samples. -/
theorem length_linspace (a b : ℚ) (num : ℕ) :
    (linspace a b num).length = num := by
  unfold linspace
  rw [List.length_map, List.length_range]

/-- Sample `i` of `linspace`. -/
theorem linspace_getD (a b : ℚ) (num i : ℕ) (h : i < num) :
    (linspace a b num).getD i 0 =
      a + (b - a) * (i : ℚ) / ((num - 1 : ℕ) : ℚ) := by
  unfold linspace
  exact getD_map_range _ _ _ _ h

/-- Claim C5 (code evaluation at the failing input): the reconstructed
wavelength array does have exactly 8575 entries, but with
`start = 0, delta = 1` its entry at index 1 carries exponent `8575/8574`
(the source passes `start + delta*8575` as the `logspace` endpoint, so the
grid step is `delta*8575/8574`), not the exponent `start + delta*1 = 1`
the claim states; hence the wavelength `10^(8575/8574)` differs from the
claimed `10^1`. -/
theorem c5_create_wavelengths_defect :
    (create_wavelengths_exponents 0 1).length = 8575 ∧
    (create_wavelengths_exponents 0 1).getD 1 0 = 8575 / 8574 ∧
    ((8575 / 8574 : ℚ) ≠ 0 + 1 * 1) ∧
    (10 : ℝ) ^ (((create_wavelengths_exponents 0 1).getD 1 0 : ℚ) : ℝ) ≠
      (10 : ℝ) ^ (((0 + 1 * 1 : ℚ) : ℝ)) := by
  have hgetD : (create_wavelengths_exponents 0 1).getD 1 0 = 8575 / 8574 := by
    rw [create_wavelengths_exponents, linspace_getD _ _ _ 1 (by norm_num)]
    norm_num
  refine ⟨?_, hgetD, by norm_num, ?_⟩
  · rw [create_wavelengths_exponents, length_linspace]
  · rw [hgetD]
    have hlt : (10 : ℝ) ^ (((0 + 1 * 1 : ℚ) : ℝ)) <
        (10 : ℝ) ^ (((8575 / 8574 : ℚ) : ℝ)) := by
      rw [Real.rpow_lt_rpow_left_iff (by norm_num)]
      push_cast
      norm_num
    exact ne_of_gt hlt

/-! ### NearestWavelengthMatcher: concrete scenario -/

/-- Claim C6: for spectrum wavelengths `[4000, 4001, 4002, 4003, 4004]` and
continuum wavelengths `[4000.5, 4003.5]`, both ties resolve to the earlier
index (advancement requires *strictly* closer), so the mask marks exactly
indices 0 and 3. -/
theorem c6_tie_break_scenario :
    closest_value [4000.5, 4003.5] [4000, 4001, 4002, 4003, 4004] =
      [true, false, false, true, false] := by
  norm_num [closest_value, closest_value_loop, advance_while, abs_rat_eval,
    List.replicate]

/-! ### NearestWavelengthMatcher: cursor lemmas -/

/-- The cursor never moves backwards. -/
theorem advance_while_le (S : List ℚ) (c : ℚ) :
    ∀ fuel j : ℕ, j ≤ advance_while S c fuel j := by
  intro fuel
  induction fuel with
  | zero =>
    intro j
    exact le_refl j
  | succ f ih =>
    intro j
    simp only [advance_while]
    by_cases hcond : j + 1 < S.length ∧
        |S.getD (j + 1) 0 - c| < |S.getD j 0 - c|
    · rw [if_pos hcond]
      exact le_trans (Nat.le_succ j) (ih (j + 1))
    · rw [if_neg hcond]

/-- The cursor stays in bounds. -/
theorem advance_while_lt (S : List ℚ) (c : ℚ) :
    ∀ fuel j : ℕ, j < S.length → advance_while S c fuel j < S.length := by
  intro fuel
  induction fuel with
  | zero =>
    intro j h
    exact h
  | succ f ih =>
    intro j h
    simp only [advance_while]
    by_cases hcond : j + 1 < S.length ∧
        |S.getD (j + 1) 0 - c| < |S.getD j 0 - c|
    · rw [if_pos hcond]
      exact ih (j + 1) hcond.1
    · rw [if_neg hcond]
      exact h

/-- With enough fuel the loop stops only when the next spectrum wavelength
is no closer (the `while` exit condition). -/
theorem advance_while_exit (S : List ℚ) (c : ℚ) :
    ∀ fuel j : ℕ, S.length - 1 - j ≤ fuel →
    advance_while S c fuel j + 1 < S.length →
    |S.getD (advance_while S c fuel j) 0 - c| ≤
      |S.getD (advance_while S c fuel j + 1) 0 - c| := by
  intro fuel
  induction fuel with
  | zero =>
    intro j hfuel hlt
    exact absurd hlt (by simp only [advance_while]; omega)
  | succ f ih =>
    intro j hfuel hlt
    simp only [advance_while] at hlt ⊢
    by_cases hcond : j + 1 < S.length ∧
        |S.getD (j + 1) 0 - c| < |S.getD j 0 - c|
    · rw [if_pos hcond] at hlt ⊢
      exact ih (j + 1) (by omega) hlt
    · rw [if_neg hcond] at hlt ⊢
      push_neg at hcond
      exact hcond hlt

/-- Strict increase of consecutive entries of a sorted list. -/
theorem chain_getD_lt (S : List ℚ) (hS : List.Pairwise (· < ·) S) (j : ℕ)
    (h : j + 1 < S.length) : S.getD j 0 < S.getD (j + 1) 0 := by
  rw [List.getD_eq_getElem _ _ (by omega), List.getD_eq_getElem _ _ h]
  exact List.pairwise_iff_getElem.mp hS j (j + 1) (by omega) h (by omega)

/-- If `b` is strictly closer to `c` than the smaller value `a`, then `c`
lies strictly beyond the midpoint of `a` and `b`. -/
theorem abs_closer_beyond_mid (a b c : ℚ) (hab : a < b)
    (h : |b - c| < |a - c|) : a + b < 2 * c := by
  have h2 : |b - c| ^ 2 < |a - c| ^ 2 := by
    nlinarith [abs_nonneg (b - c), abs_nonneg (a - c)]
  rw [sq_abs, sq_abs] at h2
  nlinarith

/-- If `c` lies at or beyond the midpoint of `a < b`, then `b` is at least
as close to `c` as `a`. -/
theorem abs_mid_closer (a b c : ℚ) (hab : a < b) (h : a + b ≤ 2 * c) :
    |b - c| ≤ |a - c| := by
  have hac : a < c := by linarith
  have habs : |a - c| = c - a := by
    rw [abs_of_nonpos (by linarith)]
    ring
  rw [abs_sub_le_iff, habs]
  constructor
  · linarith
  · linarith

/-- The loop preserves the midpoint invariant: whenever the cursor has
passed index `j - 1`, the query point lies at or beyond the midpoint of
the two spectrum wavelengths around the crossing. -/
theorem advance_while_mid (S : List ℚ) (hS : List.Pairwise (· < ·) S)
    (c : ℚ) : ∀ fuel j : ℕ, j < S.length →
    (0 < j → S.getD (j - 1) 0 + S.getD j 0 ≤ 2 * c) →
    (0 < advance_while S c fuel j →
      S.getD (advance_while S c fuel j - 1) 0 +
        S.getD (advance_while S c fuel j) 0 ≤ 2 * c) := by
  intro fuel
  induction fuel with
  | zero =>
    intro j _ hinv
    exact hinv
  | succ f ih =>
    intro j hj hinv
    simp only [advance_while]
    by_cases hcond : j + 1 < S.length ∧
        |S.getD (j + 1) 0 - c| < |S.getD j 0 - c|
    · rw [if_pos hcond]
      apply ih (j + 1) hcond.1
      intro _
      have hlt := chain_getD_lt S hS j hcond.1
      have hmid := abs_closer_beyond_mid _ _ _ hlt hcond.2
      simpa using hmid.le
    · rw [if_neg hcond]
      exact hinv

/-- Invariant-carrying specification of the per-query matches: every
recorded cursor position is in bounds and is a local (hence, by
unimodality, global) nearest neighbour of its query wavelength. -/
theorem match_indices_spec (S : List ℚ) (hS : List.Pairwise (· < ·) S) :
    ∀ (C : List ℚ) (j0 : ℕ), List.Chain' (· < ·) C → j0 < S.length →
    (∀ c ∈ C.head?, 0 < j0 → S.getD (j0 - 1) 0 + S.getD j0 0 ≤ 2 * c) →
    ∀ i, i < C.length →
      (match_indices S C j0).getD i 0 < S.length ∧
      (0 < (match_indices S C j0).getD i 0 →
        |S.getD ((match_indices S C j0).getD i 0) 0 - C.getD i 0| ≤
          |S.getD ((match_indices S C j0).getD i 0 - 1) 0 - C.getD i 0|) ∧
      ((match_indices S C j0).getD i 0 + 1 < S.length →
        |S.getD ((match_indices S C j0).getD i 0) 0 - C.getD i 0| ≤
          |S.getD ((match_indices S C j0).getD i 0 + 1) 0 - C.getD i 0|) := by
  intro C
  induction C with
  | nil =>
    intro j0 _ _ _ i hi
    exact absurd hi (by simp)
  | cons c cs ih =>
    intro j0 hC hj0 hinv i hi
    have hchain := List.chain'_cons'.mp hC
    have hunfold : match_indices S (c :: cs) j0 =
        advance_while S c S.length j0 ::
          match_indices S cs (advance_while S c S.length j0) := rfl
    have hj1lt : advance_while S c S.length j0 < S.length :=
      advance_while_lt S c S.length j0 hj0
    have hmid : 0 < advance_while S c S.length j0 →
        S.getD (advance_while S c S.length j0 - 1) 0 +
          S.getD (advance_while S c S.length j0) 0 ≤ 2 * c := by
      apply advance_while_mid S hS c S.length j0 hj0
      intro hpos
      exact hinv c rfl hpos
    cases i with
    | zero =>
      rw [hunfold]
      simp only [List.getD_cons_zero]
      refine ⟨hj1lt, ?_, ?_⟩
      · intro hpos
        have hm := hmid hpos
        have hstep : advance_while S c S.length j0 - 1 + 1 =
            advance_while S c S.length j0 := by omega
        have hlt := chain_getD_lt S hS (advance_while S c S.length j0 - 1)
          (by omega)
        rw [hstep] at hlt
        exact abs_mid_closer _ _ _ hlt hm
      · intro h1
        exact advance_while_exit S c S.length j0 (by omega) h1
    | succ i =>
      rw [hunfold]
      simp only [List.getD_cons_succ]
      apply ih (advance_while S c S.length j0) hchain.2 hj1lt ?_ i
        (by simpa using hi)
      intro c' hc' hpos
      have hcc : c < c' := hchain.1 c' hc'
      have := hmid hpos
      linarith

/-- Claim C2: for strictly increasing continuum and spectrum sequences with
at least two spectrum samples, every recorded match index is a true nearest
neighbour of the continuum wavelength it was recorded for:
`|S[match] - c| ≤ |S[match ± 1] - c|` for every valid neighbour offset,
despite the forward-only cursor never resetting between queries. -/
theorem c2_matcher_true_nearest (C S : List ℚ) (hC : List.Chain' (· < ·) C)
    (hS : List.Chain' (· < ·) S) (hS2 : 2 ≤ S.length)
    (i : ℕ) (hi : i < C.length) :
    (match_indices S C 0).getD i 0 < S.length ∧
    (0 < (match_indices S C 0).getD i 0 →
      |S.getD ((match_indices S C 0).getD i 0) 0 - C.getD i 0| ≤
        |S.getD ((match_indices S C 0).getD i 0 - 1) 0 - C.getD i 0|) ∧
    ((match_indices S C 0).getD i 0 + 1 < S.length →
      |S.getD ((match_indices S C 0).getD i 0) 0 - C.getD i 0| ≤
        |S.getD ((match_indices S C 0).getD i 0 + 1) 0 - C.getD i 0|) := by
  have hSp : List.Pairwise (· < ·) S := List.chain'_iff_pairwise.mp hS
  exact match_indices_spec S hSp C 0 hC (by omega) (by simp) i hi

/-- Witness for C2 at `C = [1, 2]`, `S = [0, 3]`, `i = 1`: the recorded
match is index 1 and both neighbour inequalities hold there. -/
theorem c2_witness :
    (match_indices [0, 3] [1, 2] 0).getD 1 0 < 2 ∧
    (0 < (match_indices [0, 3] [1, 2] 0).getD 1 0 →
      |([0, 3] : List ℚ).getD ((match_indices [0, 3] [1, 2] 0).getD 1 0) 0 -
          ([1, 2] : List ℚ).getD 1 0| ≤
        |([0, 3] : List ℚ).getD
            ((match_indices [0, 3] [1, 2] 0).getD 1 0 - 1) 0 -
          ([1, 2] : List ℚ).getD 1 0|) ∧
    ((match_indices [0, 3] [1, 2] 0).getD 1 0 + 1 < 2 →
      |([0, 3] : List ℚ).getD ((match_indices [0, 3] [1, 2] 0).getD 1 0) 0 -
          ([1, 2] : List ℚ).getD 1 0| ≤
        |([0, 3] : List ℚ).getD
            ((match_indices [0, 3] [1, 2] 0).getD 1 0 + 1) 0 -
          ([1, 2] : List ℚ).getD 1 0|) :=
  c2_matcher_true_nearest [1, 2] [0, 3]
    (by norm_num [List.chain'_cons, List.chain'_singleton])
    (by norm_num [List.chain'_cons, List.chain'_singleton])
    (by norm_num) 1 (by norm_num)

/-! ### NearestWavelengthMatcher: mask counting -/

/-- Setting one entry to `true` raises the `true` count by at most one. -/
theorem count_set_true_le (l : List Bool) :
    ∀ n : ℕ, (l.set n true).count true ≤ l.count true + 1 := by
  induction l with
  | nil =>
    intro n
    simp
  | cons b t ih =>
    intro n
    cases n with
    | zero =>
      simp only [List.set]
      simp [List.count_cons]
    | succ n =>
      simp only [List.set]
      simp only [List.count_cons]
      have := ih n
      omega

/-- The matcher loop marks at most one index per continuum wavelength. -/
theorem closest_value_loop_count (S : List ℚ) :
    ∀ (cs : List ℚ) (j : ℕ) (bools : List Bool),
    (closest_value_loop S cs j bools).count true ≤
      bools.count true + cs.length := by
  intro cs
  induction cs with
  | nil =>
    intro j bools
    simp [closest_value_loop]
  | cons c cs ih =>
    intro j bools
    have hunfold : closest_value_loop S (c :: cs) j bools =
        closest_value_loop S cs (advance_while S c S.length j)
          (bools.set (advance_while S c S.length j) true) := rfl
    rw [hunfold]
    calc (closest_value_loop S cs (advance_while S c S.length j)
            (bools.set (advance_while S c S.length j) true)).count true
        ≤ (bools.set (advance_while S c S.length j) true).count true +
            cs.length := ih _ _
      _ ≤ bools.count true + 1 + cs.length := by
          have := count_set_true_le bools (advance_while S c S.length j)
          omega
      _ = bools.count true + (c :: cs).length := by
          simp only [List.length_cons]
          omega

/-- The matcher loop preserves the mask length. -/
theorem closest_value_loop_length (S : List ℚ) :
    ∀ (cs : List ℚ) (j : ℕ) (bools : List Bool),
    (closest_value_loop S cs j bools).length = bools.length := by
  intro cs
  induction cs with
  | nil =>
    intro j bools
    rfl
  | cons c cs ih =>
    intro j bools
    have hunfold : closest_value_loop S (c :: cs) j bools =
        closest_value_loop S cs (advance_while S c S.length j)
          (bools.set (advance_while S c S.length j) true) := rfl
    rw [hunfold, ih, List.length_set]

/-- Claim C10 (implicit): the boolean mask collapses duplicate matches —
for strictly increasing inputs the number of `true` entries is at most
`min |C| |S|`, and for `C = [1, 2]`, `S = [0, 100]` (with `|C| = 2`) both
continuum wavelengths share nearest index 0, so only one entry is marked. -/
theorem c10_mask_collapses_duplicates :
    (∀ C S : List ℚ, List.Chain' (· < ·) C → List.Chain' (· < ·) S →
      (closest_value C S).count true ≤ min C.length S.length) ∧
    (List.Chain' (· < ·) ([1, 2] : List ℚ) ∧
      List.Chain' (· < ·) ([0, 100] : List ℚ) ∧
      (closest_value [1, 2] [0, 100]).count true = 1 ∧
      1 < ([1, 2] : List ℚ).length) := by
  constructor
  · intro C S _ _
    apply le_min
    · calc (closest_value C S).count true
          ≤ (List.replicate S.length false).count true + C.length :=
            closest_value_loop_count S C 0 _
        _ = C.length := by simp [List.count_replicate]
    · calc (closest_value C S).count true
          ≤ (closest_value C S).length := List.count_le_length _ _
        _ = S.length := by
            unfold closest_value
            rw [closest_value_loop_length, List.length_replicate]
  · refine ⟨by norm_num [List.chain'_cons, List.chain'_singleton],
      by norm_num [List.chain'_cons, List.chain'_singleton], ?_, by norm_num⟩
    norm_num [closest_value, closest_value_loop, advance_while, abs_rat_eval,
      List.replicate, List.count_cons]

/-- Witness for C10 at `C = [1, 2]`, `S = [0, 100]`: the count bound
applied at strictly increasing concrete inputs. -/
theorem c10_witness :
    (closest_value [1, 2] [0, 100]).count true ≤
      min ([1, 2] : List ℚ).length ([0, 100] : List ℚ).length :=
  c10_mask_collapses_duplicates.1 [1, 2] [0, 100]
    (by norm_num [List.chain'_cons, List.chain'_singleton])
    (by norm_num [List.chain'_cons, List.chain'_singleton])

/-! ### ContinuumNormalizer: fit/evaluation mapping and error behaviour -/

/-- Claim C4 (code evaluation at the failing input): with anchor
wavelengths `[2, 4]` and fitting window `(1, 5)` (the full restricted range
of spectrum wavelengths `[1, 2, 3, 4, 5]`), the fit's default domain
`getdomain [2, 4] = (2, 4)` differs from the window, so the basis
coordinate the fit associates with anchor wavelength 2 is
`mapdomain (2,4) (1,5) 2 = 1`, while the evaluation step (`chebval` on the
raw wavelength) uses coordinate 2; the fitted series is hence evaluated
under a different basis mapping than it was fitted with — e.g. the
Chebyshev series `(0, 1, 0)` takes value 1 under the fit-time mapping and
value 2 under the evaluation-time mapping. -/
theorem c4_fit_eval_mapping_mismatch :
    getdomain [2, 4] ≠ ((1 : ℚ), (5 : ℚ)) ∧
    mapdomain (getdomain [2, 4]) (1, 5) 2 ≠ 2 ∧
    chebval (0, 1, 0) (mapdomain (getdomain [2, 4]) (1, 5) 2) ≠
      chebval (0, 1, 0) 2 := by
  norm_num [getdomain, mapdomain, chebval, min_def, max_def, Prod.ext_iff]

/-- Claim C7 (code evaluation at the failing input): the normalizer
performs no anchor-count validation.  For spectrum wavelengths
`[1, 2, 3, 4, 5]` and continuum wavelengths `[2.2, 3.9]` on interval
`(0, 6)` the anchor set is exactly the two wavelengths `[2, 4]` — fewer
than the 3 distinct anchors a degree-2 fit needs — yet the pipeline
proceeds through the underdetermined fit and returns a result instead of
failing.  A restricted interval with zero spectrum points does make the
pipeline fail, but with an out-of-bounds index error, not a descriptive
empty-interval condition. -/
theorem c7_no_degenerate_fit_error :
    bool_index [1, 2, 3, 4, 5]
        (closest_value [11/5, 39/10] [1, 2, 3, 4, 5]) = [2, 4] ∧
    (data_normalizer [1, 2, 3, 4, 5] [11/5, 39/10] [1, 1, 1, 1, 1]
        [1, 1, 1, 1, 1] (0, 6)).isOk = true ∧
    data_normalizer [1, 2, 3] [3/2] [1, 1, 1] [1, 1, 1] (10, 20) =
      .error "index 0 is out of bounds" := by
  have hrange5 : List.range 5 = [0, 1, 2, 3, 4] := rfl
  have hrange3 : List.range 3 = [0, 1, 2] := rfl
  have hrange1 : List.range 1 = [0] := rfl
  have hrange2 : List.range 2 = [0, 1] := rfl
  refine ⟨?_, ?_, ?_⟩
  · norm_num [bool_index, closest_value, closest_value_loop, advance_while,
      abs_rat_eval, List.replicate]
  · norm_num [data_normalizer, interval_cut, intersect1d, np_where,
      hrange5, hrange2, List.insertionSort, List.orderedInsert, List.dedup,
      List.pwFilter, List.filter_cons, decide_eq_true_eq, bool_index,
      closest_value, closest_value_loop, advance_while, abs_rat_eval,
      List.replicate, chebfit, getdomain, mapdomain, min_def, max_def,
      normal_system, cheb_row, outer, msmul, madd, mat_zero, vadd, vsub,
      vsmul, vdot, mulVec, trace3, det3, minor_sum, lstsq3, chebval,
      Except.isOk, Except.toBool]
  · norm_num [data_normalizer, interval_cut, intersect1d, np_where,
      hrange3, hrange1, List.insertionSort, List.orderedInsert, List.dedup,
      List.pwFilter, List.filter_cons, decide_eq_true_eq]

end StellarSpectra
